import Mathlib

/-!
Shallow embedding of the live-bidding platform's bid-serialization engine
(`src/backend/server.js`, the `place-bid` socket handler) and proofs of the
specification's claims about it.

Amounts and timestamps are JavaScript numbers used with exact comparisons;
they are modelled as `Int`.  The in-memory auction table is a `List Auction`;
the handler's `find`-then-mutate pattern is modelled by `find?` plus an
update of the first matching element.  Socket emissions (`socket.emit` to
the submitter, `io.emit` to all parties) are returned explicitly.  The
handler calls `Date.now()` twice — once for the deadline check and once,
later, for the stored history timestamp — so the embedding threads two
separate clock readings through each call.
-/

namespace LiveBid

/-- One entry of an auction's `bidHistory`, as pushed by the handler:
`{amount: bidAmount, bidder: bidderName || socket.id, timestamp: Date.now()}`. -/
structure BidEntry where
  amount : Int
  bidder : String
  timestamp : Int
deriving DecidableEq, Repr

/-- One element of the in-memory `auctionItems` array. -/
structure Auction where
  id : Nat
  title : String
  description : String
  image : String
  currentBid : Int
  minimumIncrement : Int
  endTime : Int
  highestBidder : Option String
  bidHistory : List BidEntry
deriving DecidableEq, Repr

/-- The payload of the inbound `place-bid` event:
`{auctionId, bidAmount, bidderName}`; `bidderName` may be absent. -/
structure BidRequest where
  auctionId : Nat
  bidAmount : Int
  bidderName : Option String
deriving DecidableEq, Repr

/-- Outbound socket events produced by the handler. -/
inductive Event where
  | bidError (auctionId : Nat) (message : String) (minimumBid : Option Int)
  | auctionUpdate (auctionId : Nat) (currentBid : Int)
      (highestBidder : Option String) (bidHistory : List BidEntry)
  | bidSuccess (auctionId : Nat) (currentBid : Int)
deriving DecidableEq, Repr

/-- An event together with its delivery target: `socket.emit` goes to the
submitting connection only, `io.emit` to every connected party. -/
inductive Emission where
  | toSubmitter (e : Event)
  | toAll (e : Event)
deriving DecidableEq, Repr

/-- The recorded bidder, `bidderName || socket.id`: it falls back to the
connection id when `bidderName` is absent or the empty string (the only
falsy string). -/
def effectiveBidder (bidderName : Option String) (socketId : String) : String :=
  match bidderName with
  | none => socketId
  | some s => if s = "" then socketId else s

/-- The mutation applied to the found auction when all checks pass:
`auction.currentBid = bidAmount; auction.highestBidder = bidderName || socket.id;
auction.bidHistory.push({amount, bidder, timestamp})`.  The stored timestamp
is `pushNow`, the handler's second `Date.now()` reading, taken at the push
and distinct from the reading used by the deadline check. -/
def applyBid (a : Auction) (req : BidRequest) (socketId : String) (pushNow : Int) : Auction :=
  { a with
    currentBid := req.bidAmount
    highestBidder := some (effectiveBidder req.bidderName socketId)
    bidHistory := a.bidHistory ++
      [{ amount := req.bidAmount
         bidder := effectiveBidder req.bidderName socketId
         timestamp := pushNow }] }

/-- Replace the first element satisfying `p` by `f` of it, leaving every
other element untouched: the effect on the array of mutating the object
returned by `Array.prototype.find`. -/
def updateFirst (p : Auction → Bool) (f : Auction → Auction) : List Auction → List Auction
  | [] => []
  | a :: rest => if p a then f a :: rest else a :: updateFirst p f rest

/-- The `place-bid` handler.  Inputs: the auction store, the request payload,
the submitting connection's `socket.id`, and the handler's two `Date.now()`
readings: `checkNow` is the reading taken for the deadline check, and
`pushNow` the separate, later reading taken when the history entry is pushed.
Only `checkNow` is ever compared with `endTime`; `pushNow` is what gets
stored as the entry's timestamp.  Output: the emitted events in emission
order and the store after the handler returns. -/
def placeBid (store : List Auction) (req : BidRequest) (socketId : String)
    (checkNow pushNow : Int) : List Emission × List Auction :=
  match store.find? (fun item => item.id == req.auctionId) with
  | none =>
      ([Emission.toSubmitter (Event.bidError req.auctionId ("Auction not found") none)], store)
  | some auction =>
      if checkNow ≥ auction.endTime then
        ([Emission.toSubmitter (Event.bidError req.auctionId ("Auction has ended") none)], store)
      else
        let minimumBid := auction.currentBid + auction.minimumIncrement
        if req.bidAmount < minimumBid then
          ([Emission.toSubmitter (Event.bidError req.auctionId
              ("Bid must be at least $" ++ toString minimumBid) (some minimumBid))], store)
        else
          let updated := applyBid auction req socketId pushNow
          ([Emission.toAll (Event.auctionUpdate req.auctionId updated.currentBid
              updated.highestBidder updated.bidHistory),
            Emission.toSubmitter (Event.bidSuccess req.auctionId updated.currentBid)],
           updateFirst (fun item => item.id == req.auctionId) (fun _ => updated) store)

/-- States of a single auction reachable from a seed by the handler run on a
store holding just that auction: only calls whose emissions contain a
`bid-success` (i.e. accepted bids) change the state.  Each call carries its
two clock readings, unconstrained relative to one another, as in the code. -/
inductive Reachable (seed : Auction) : Auction → Prop
  | init : Reachable seed seed
  | step (a next : Auction) (req : BidRequest) (socketId : String)
      (checkNow pushNow : Int) (es : List Emission) :
      Reachable seed a →
      placeBid [a] req socketId checkNow pushNow = (es, [next]) →
      Emission.toSubmitter (Event.bidSuccess req.auctionId req.bidAmount) ∈ es →
      Reachable seed next

/-- Runs of the handler on one auction in which, additionally, the second
clock reading of every accepted call — the one stored in the history entry —
also precedes the deadline, e.g. runs in which the millisecond clock does not
advance between the deadline check and the push.  The code itself enforces
the deadline only against the first reading. -/
inductive ReachableWithin (seed : Auction) : Auction → Prop
  | init : ReachableWithin seed seed
  | step (a next : Auction) (req : BidRequest) (socketId : String)
      (checkNow pushNow : Int) (es : List Emission) :
      ReachableWithin seed a →
      placeBid [a] req socketId checkNow pushNow = (es, [next]) →
      Emission.toSubmitter (Event.bidSuccess req.auctionId req.bidAmount) ∈ es →
      pushNow < a.endTime →
      ReachableWithin seed next

/-! Concrete scenario data (spec §8): auction seeded at 150 with
increment 10, three sequential bids A=160, B=155, C=170 before `endTime`. -/

/-- The first seeded auction item, with `Date.now()` at seeding taken as 0. -/
def demoAuction : Auction :=
  { id := 1
    title := "Vintage Camera"
    description := "Classic 35mm film camera in excellent condition"
    image := "https://images.unsplash.com/photo-1526170375885-4d8ecf77b99f?w=400"
    currentBid := 150
    minimumIncrement := 10
    endTime := 900000
    highestBidder := none
    bidHistory := [] }

/-- The second seeded auction item, with `Date.now()` at seeding taken as 0. -/
def otherAuction : Auction :=
  { id := 2
    title := "Designer Watch"
    description := "Luxury timepiece with leather strap"
    image := "https://images.unsplash.com/photo-1523275335684-37898b6baf30?w=400"
    currentBid := 500
    minimumIncrement := 10
    endTime := 1200000
    highestBidder := none
    bidHistory := [] }

/-- State of `demoAuction` after bidder A's accepted bid of 160 at time 1000. -/
def demoAfterA : Auction :=
  { demoAuction with
    currentBid := 160
    highestBidder := some ("A")
    bidHistory := [{ amount := 160, bidder := "A", timestamp := 1000 }] }

/-- State of `demoAfterA` after bidder C's accepted bid of 170 at time 3000. -/
def demoAfterC : Auction :=
  { demoAfterA with
    currentBid := 170
    highestBidder := some ("C")
    bidHistory := [{ amount := 160, bidder := "A", timestamp := 1000 },
                   { amount := 170, bidder := "C", timestamp := 3000 }] }

/-- State of `demoAuction` after a bid whose deadline check read the clock at
899999 (one millisecond before `endTime`) but whose history entry was stamped
by the handler's second clock reading at 900000 = `endTime`. -/
def demoLateStamp : Auction :=
  { demoAuction with
    currentBid := 160
    highestBidder := some ("A")
    bidHistory := [{ amount := 160, bidder := "A", timestamp := 900000 }] }

/-! Branch lemmas for `placeBid` -/

lemma placeBid_not_found (store : List Auction) (req : BidRequest) (socketId : String)
    (checkNow pushNow : Int)
    (h : store.find? (fun item => item.id == req.auctionId) = none) :
    placeBid store req socketId checkNow pushNow =
      ([Emission.toSubmitter (Event.bidError req.auctionId ("Auction not found") none)], store) := by
  simp [placeBid, h]

lemma placeBid_ended (store : List Auction) (req : BidRequest) (socketId : String)
    (checkNow pushNow : Int) (a : Auction)
    (hf : store.find? (fun item => item.id == req.auctionId) = some a)
    (h : a.endTime ≤ checkNow) :
    placeBid store req socketId checkNow pushNow =
      ([Emission.toSubmitter (Event.bidError req.auctionId ("Auction has ended") none)], store) := by
  simp [placeBid, hf, ge_iff_le, h]

lemma placeBid_too_low (store : List Auction) (req : BidRequest) (socketId : String)
    (checkNow pushNow : Int) (a : Auction)
    (hf : store.find? (fun item => item.id == req.auctionId) = some a)
    (hnow : checkNow < a.endTime)
    (hlt : req.bidAmount < a.currentBid + a.minimumIncrement) :
    placeBid store req socketId checkNow pushNow =
      ([Emission.toSubmitter (Event.bidError req.auctionId
          ("Bid must be at least $" ++ toString (a.currentBid + a.minimumIncrement))
          (some (a.currentBid + a.minimumIncrement)))], store) := by
  simp [placeBid, hf, ge_iff_le, not_le.mpr hnow, hlt]

lemma placeBid_accepted (store : List Auction) (req : BidRequest) (socketId : String)
    (checkNow pushNow : Int) (a : Auction)
    (hf : store.find? (fun item => item.id == req.auctionId) = some a)
    (hnow : checkNow < a.endTime)
    (hge : a.currentBid + a.minimumIncrement ≤ req.bidAmount) :
    placeBid store req socketId checkNow pushNow =
      ([Emission.toAll (Event.auctionUpdate req.auctionId req.bidAmount
          (some (effectiveBidder req.bidderName socketId))
          (applyBid a req socketId pushNow).bidHistory),
        Emission.toSubmitter (Event.bidSuccess req.auctionId req.bidAmount)],
       updateFirst (fun item => item.id == req.auctionId)
         (fun _ => applyBid a req socketId pushNow) store) := by
  simp [placeBid, hf, ge_iff_le, not_le.mpr hnow, not_lt.mpr hge, applyBid]

lemma find?_singleton_pos (a : Auction) (req : BidRequest) (h : a.id = req.auctionId) :
    [a].find? (fun item => item.id == req.auctionId) = some a := by
  simp [List.find?, h]

lemma updateFirst_singleton (p : Auction → Bool) (f : Auction → Auction) (a : Auction)
    (h : p a = true) : updateFirst p f [a] = [f a] := by
  simp [updateFirst, h]

/-- Inversion for an accepted bid on a singleton store: if the handler's
emissions contain a `bid-success`, all three checks passed and the store
holds exactly the updated auction. -/
lemma accepted_inversion (a next : Auction) (req : BidRequest) (socketId : String)
    (checkNow pushNow : Int) (es : List Emission)
    (h : placeBid [a] req socketId checkNow pushNow = (es, [next]))
    (hs : Emission.toSubmitter (Event.bidSuccess req.auctionId req.bidAmount) ∈ es) :
    a.id = req.auctionId ∧ checkNow < a.endTime ∧
      a.currentBid + a.minimumIncrement ≤ req.bidAmount ∧
      next = applyBid a req socketId pushNow := by
  by_cases hid : a.id = req.auctionId
  · have hf := find?_singleton_pos a req hid
    by_cases hend : a.endTime ≤ checkNow
    · rw [placeBid_ended [a] req socketId checkNow pushNow a hf hend] at h
      obtain ⟨rfl, -⟩ := Prod.mk.injEq .. ▸ h
      simp at hs
    · push_neg at hend
      by_cases hlt : req.bidAmount < a.currentBid + a.minimumIncrement
      · rw [placeBid_too_low [a] req socketId checkNow pushNow a hf hend hlt] at h
        obtain ⟨rfl, -⟩ := Prod.mk.injEq .. ▸ h
        simp at hs
      · push_neg at hlt
        rw [placeBid_accepted [a] req socketId checkNow pushNow a hf hend hlt] at h
        obtain ⟨-, h2⟩ := Prod.mk.injEq .. ▸ h
        rw [updateFirst_singleton _ _ _ (by simp [hid])] at h2
        exact ⟨hid, hend, hlt, (List.cons.injEq .. ▸ h2).1.symm⟩
  · have hb : (a.id == req.auctionId) = false := by simp [hid]
    have hf : [a].find? (fun item => item.id == req.auctionId) = none := by
      simp [List.find?, hb]
    rw [placeBid_not_found [a] req socketId checkNow pushNow hf] at h
    obtain ⟨rfl, -⟩ := Prod.mk.injEq .. ▸ h
    simp at hs

/-- On a singleton store the handler either leaves the auction untouched (any
rejection) or all checks passed and it stores the updated auction. -/
lemma placeBid_singleton_cases (a next : Auction) (req : BidRequest) (socketId : String)
    (checkNow pushNow : Int) (es : List Emission)
    (h : placeBid [a] req socketId checkNow pushNow = (es, [next])) :
    next = a ∨ (a.id = req.auctionId ∧ checkNow < a.endTime ∧
      a.currentBid + a.minimumIncrement ≤ req.bidAmount ∧
      next = applyBid a req socketId pushNow) := by
  by_cases hid : a.id = req.auctionId
  · have hf := find?_singleton_pos a req hid
    by_cases hend : a.endTime ≤ checkNow
    · rw [placeBid_ended [a] req socketId checkNow pushNow a hf hend] at h
      obtain ⟨-, h2⟩ := Prod.mk.injEq .. ▸ h
      exact Or.inl (List.cons.injEq .. ▸ h2).1.symm
    · push_neg at hend
      by_cases hlt : req.bidAmount < a.currentBid + a.minimumIncrement
      · rw [placeBid_too_low [a] req socketId checkNow pushNow a hf hend hlt] at h
        obtain ⟨-, h2⟩ := Prod.mk.injEq .. ▸ h
        exact Or.inl (List.cons.injEq .. ▸ h2).1.symm
      · push_neg at hlt
        rw [placeBid_accepted [a] req socketId checkNow pushNow a hf hend hlt] at h
        obtain ⟨-, h2⟩ := Prod.mk.injEq .. ▸ h
        rw [updateFirst_singleton _ _ _ (by simp [hid])] at h2
        exact Or.inr ⟨hid, hend, hlt, (List.cons.injEq .. ▸ h2).1.symm⟩
  · have hb : (a.id == req.auctionId) = false := by simp [hid]
    have hf : [a].find? (fun item => item.id == req.auctionId) = none := by
      simp [List.find?, hb]
    rw [placeBid_not_found [a] req socketId checkNow pushNow hf] at h
    obtain ⟨-, h2⟩ := Prod.mk.injEq .. ▸ h
    exact Or.inl (List.cons.injEq .. ▸ h2).1.symm

/-- Relating `updateFirst` elementwise to the original list: the found element
maps through `g`, all others are untouched. -/
lemma updateFirst_forall₂ (P : Auction → Auction → Prop) (p : Auction → Bool)
    (g : Auction → Auction) (hrefl : ∀ b, P b b) :
    ∀ (store : List Auction) (a : Auction), store.find? p = some a → P a (g a) →
      List.Forall₂ P store (updateFirst p g store)
  | [], a, hfind, _ => by simp at hfind
  | b :: rest, a, hfind, hPa => by
      by_cases hb : p b = true
      · rw [List.find?_cons_of_pos _ hb] at hfind
        obtain rfl : b = a := by injection hfind
        rw [updateFirst, if_pos hb]
        exact List.Forall₂.cons hPa (List.forall₂_same.mpr fun x _ => hrefl x)
      · rw [List.find?_cons_of_neg _ (by simpa using hb)] at hfind
        rw [updateFirst, if_neg hb]
        exact List.Forall₂.cons (hrefl b) (updateFirst_forall₂ P p g hrefl rest a hfind hPa)

/-- Master invariant of reachable auction states: immutable fields are
preserved, `currentBid`/`highestBidder` track the last history entry (or the
seed when the history is empty), history amounts grow by at least the
increment, and `currentBid` never decreases when the increment is
nonnegative. -/
lemma reachable_invariant (seed a : Auction)
    (hseed : seed.bidHistory = []) (hnone : seed.highestBidder = none)
    (h : Reachable seed a) :
    a.id = seed.id ∧ a.title = seed.title ∧ a.description = seed.description ∧
    a.image = seed.image ∧ a.minimumIncrement = seed.minimumIncrement ∧
    a.endTime = seed.endTime ∧
    (a.bidHistory = [] → a.currentBid = seed.currentBid ∧ a.highestBidder = none) ∧
    (∀ e, a.bidHistory.getLast? = some e →
        a.currentBid = e.amount ∧ a.highestBidder = some e.bidder) ∧
    List.Chain' (fun x y => x.amount + seed.minimumIncrement ≤ y.amount) a.bidHistory ∧
    (0 ≤ seed.minimumIncrement → seed.currentBid ≤ a.currentBid) := by
  induction h with
  | init =>
      refine ⟨rfl, rfl, rfl, rfl, rfl, rfl, fun _ => ⟨rfl, hnone⟩, ?_, ?_, fun _ => le_refl _⟩
      · intro e he
        rw [hseed] at he
        simp at he
      · rw [hseed]
        exact List.chain'_nil
  | step a next req socketId checkNow pushNow es ha hp hs ih =>
      obtain ⟨hid, hend, hge, rfl⟩ :=
        accepted_inversion a next req socketId checkNow pushNow es hp hs
      obtain ⟨ih1, ih2, ih3, ih4, ih5, ih6, ihEmpty, ihLast, ihChain, ihMono⟩ := ih
      refine ⟨ih1, ih2, ih3, ih4, ih5, ih6, ?_, ?_, ?_, ?_⟩
      · intro hcontra
        simp [applyBid] at hcontra
      · intro e he
        simp only [applyBid, List.getLast?_concat, Option.some.injEq] at he
        subst he
        exact ⟨rfl, rfl⟩
      · simp only [applyBid]
        rw [List.chain'_append]
        refine ⟨ihChain, List.chain'_singleton _, ?_⟩
        intro x hx y hy
        simp only [List.head?_cons, Option.mem_def, Option.some.injEq] at hy
        subst hy
        have hx' := ihLast x hx
        have : a.currentBid + a.minimumIncrement ≤ req.bidAmount := hge
        rw [hx'.1, ih5] at this
        simpa using this
      · intro hpos
        have h1 := ihMono hpos
        have h2 : a.currentBid ≤ req.bidAmount := by
          have := hge
          have hp0 : 0 ≤ a.minimumIncrement := ih5 ▸ hpos
          omega
        simp only [applyBid]
        exact le_trans h1 h2

/-- Invariant of the stamp-disciplined runs: `endTime` is preserved and, since
every step's push-time reading also preceded the deadline, every recorded
timestamp is strictly below `endTime`. -/
lemma reachableWithin_timestamps (seed a : Auction)
    (hseed : seed.bidHistory = []) (h : ReachableWithin seed a) :
    a.endTime = seed.endTime ∧ ∀ e ∈ a.bidHistory, e.timestamp < a.endTime := by
  induction h with
  | init =>
      refine ⟨rfl, ?_⟩
      intro e he
      rw [hseed] at he
      simp at he
  | step a next req socketId checkNow pushNow es ha hp hs hstamp ih =>
      obtain ⟨hid, hend, hge, rfl⟩ :=
        accepted_inversion a next req socketId checkNow pushNow es hp hs
      refine ⟨ih.1, ?_⟩
      intro e he
      simp only [applyBid, List.mem_append, List.mem_singleton] at he
      rcases he with he | he
      · exact ih.2 e he
      · subst he
        simpa [applyBid] using hstamp


/-! Claim theorems -/

/-- C1: on an auction seeded with currentBid 150 and increment 10, processed
sequentially before `endTime`: A's 160 is accepted and sets currentBid to 160;
B's 155 is then rejected too-low with hint 170, computed from the updated
price 160; C's 170 is then accepted and sets currentBid to 170.  In general a
bid on the current state is validated against the current `currentBid` plus
the increment, and an accepted bid leaves `currentBid` equal to its amount. -/
theorem claim1_sequential_validation :
    (placeBid [demoAuction] ⟨1, 160, some ("A")⟩ ("sockA") 1000 1000
      = ([Emission.toAll (Event.auctionUpdate 1 160 (some ("A"))
            [{ amount := 160, bidder := "A", timestamp := 1000 }]),
          Emission.toSubmitter (Event.bidSuccess 1 160)], [demoAfterA])) ∧
    demoAfterA.currentBid = 160 ∧
    (placeBid [demoAfterA] ⟨1, 155, some ("B")⟩ ("sockB") 2000 2000
      = ([Emission.toSubmitter (Event.bidError 1 ("Bid must be at least $170") (some 170))],
         [demoAfterA])) ∧
    (placeBid [demoAfterA] ⟨1, 170, some ("C")⟩ ("sockC") 3000 3000
      = ([Emission.toAll (Event.auctionUpdate 1 170 (some ("C"))
            [{ amount := 160, bidder := "A", timestamp := 1000 },
             { amount := 170, bidder := "C", timestamp := 3000 }]),
          Emission.toSubmitter (Event.bidSuccess 1 170)], [demoAfterC])) ∧
    demoAfterC.currentBid = 170 ∧
    (∀ (a : Auction) (req : BidRequest) (socketId : String) (checkNow pushNow : Int),
      a.id = req.auctionId → checkNow < a.endTime →
        (req.bidAmount < a.currentBid + a.minimumIncrement →
          placeBid [a] req socketId checkNow pushNow
            = ([Emission.toSubmitter (Event.bidError req.auctionId
                ("Bid must be at least $" ++ toString (a.currentBid + a.minimumIncrement))
                (some (a.currentBid + a.minimumIncrement)))], [a])) ∧
        (a.currentBid + a.minimumIncrement ≤ req.bidAmount →
          (placeBid [a] req socketId checkNow pushNow).2
            = [applyBid a req socketId pushNow] ∧
          (applyBid a req socketId pushNow).currentBid = req.bidAmount)) := by
  refine ⟨rfl, rfl, rfl, rfl, rfl, ?_⟩
  intro a req socketId checkNow pushNow hid hnow
  have hf := find?_singleton_pos a req hid
  constructor
  · intro hlt
    exact placeBid_too_low [a] req socketId checkNow pushNow a hf hnow hlt
  · intro hge
    rw [placeBid_accepted [a] req socketId checkNow pushNow a hf hnow hge]
    rw [updateFirst_singleton _ _ _ (by simp [hid])]
    exact ⟨rfl, rfl⟩

/-- Witness for C1's general clause at a concrete input: a 155 bid on the
seeded auction is rejected against 150 + 10 with hint 160. -/
theorem claim1_witness :
    placeBid [demoAuction] ⟨1, 155, some ("B")⟩ ("sockB") 500 501
      = ([Emission.toSubmitter (Event.bidError 1 ("Bid must be at least $160") (some 160))],
         [demoAuction]) :=
  (claim1_sequential_validation.2.2.2.2.2 demoAuction ⟨1, 155, some ("B")⟩ ("sockB") 500 501
    rfl (by decide)).1 (by decide)

/-- C2: a bid on an existing auction whose validation-time clock reading is at
or past `endTime` is rejected with the auction-ended error, for every auction
state and every amount, and the store is returned unchanged. -/
theorem claim2_deadline_rejection (store : List Auction) (req : BidRequest)
    (socketId : String) (checkNow pushNow : Int) (a : Auction)
    (hf : store.find? (fun item => item.id == req.auctionId) = some a)
    (h : checkNow ≥ a.endTime) :
    placeBid store req socketId checkNow pushNow
      = ([Emission.toSubmitter (Event.bidError req.auctionId ("Auction has ended") none)],
         store) :=
  placeBid_ended store req socketId checkNow pushNow a hf h

/-- Witness for C2 at the exact boundary `checkNow = endTime` with a huge
amount. -/
theorem claim2_witness :
    placeBid [demoAuction] ⟨1, 1000000, some ("Z")⟩ ("sockZ") 900000 900001
      = ([Emission.toSubmitter (Event.bidError 1 ("Auction has ended") none)],
         [demoAuction]) :=
  claim2_deadline_rejection [demoAuction] ⟨1, 1000000, some ("Z")⟩ ("sockZ") 900000 900001
    demoAuction (by rfl) (by decide)

/-- C8: a bid whose `auctionId` matches no stored auction yields the
not-found error, emitted to the submitter only, with the store unchanged,
for every amount, bidder name, and clock readings. -/
theorem claim8_not_found (store : List Auction) (req : BidRequest)
    (socketId : String) (checkNow pushNow : Int)
    (h : store.find? (fun item => item.id == req.auctionId) = none) :
    placeBid store req socketId checkNow pushNow
      = ([Emission.toSubmitter (Event.bidError req.auctionId ("Auction not found") none)],
         store) :=
  placeBid_not_found store req socketId checkNow pushNow h

/-- Witness for C8: auction id 99 is not in the store. -/
theorem claim8_witness :
    placeBid [demoAuction] ⟨99, 500, some ("A")⟩ ("sockA") 1000 1001
      = ([Emission.toSubmitter (Event.bidError 99 ("Auction not found") none)],
         [demoAuction]) :=
  claim8_not_found [demoAuction] ⟨99, 500, some ("A")⟩ ("sockA") 1000 1001 (by rfl)

/-- C3: on an existing, not-yet-ended auction, the too-low rejection happens
exactly when `bidAmount < currentBid + minimumIncrement`, carrying that
minimum as the hint; a bid exactly at the minimum is accepted; and a
`minimumBid` value is present in an emitted error only in the too-low case,
never for not-found or ended. -/
theorem claim3_price_check :
    (∀ (store : List Auction) (req : BidRequest) (socketId : String)
        (checkNow pushNow : Int) (a : Auction),
      store.find? (fun item => item.id == req.auctionId) = some a → checkNow < a.endTime →
        (req.bidAmount < a.currentBid + a.minimumIncrement ↔
          placeBid store req socketId checkNow pushNow
            = ([Emission.toSubmitter (Event.bidError req.auctionId
                ("Bid must be at least $" ++ toString (a.currentBid + a.minimumIncrement))
                (some (a.currentBid + a.minimumIncrement)))], store))) ∧
    (∀ (store : List Auction) (req : BidRequest) (socketId : String)
        (checkNow pushNow : Int) (a : Auction),
      store.find? (fun item => item.id == req.auctionId) = some a → checkNow < a.endTime →
      req.bidAmount = a.currentBid + a.minimumIncrement →
        (placeBid store req socketId checkNow pushNow).1
          = [Emission.toAll (Event.auctionUpdate req.auctionId req.bidAmount
              (some (effectiveBidder req.bidderName socketId))
              (applyBid a req socketId pushNow).bidHistory),
             Emission.toSubmitter (Event.bidSuccess req.auctionId req.bidAmount)]) ∧
    (∀ (store : List Auction) (req : BidRequest) (socketId : String)
        (checkNow pushNow : Int)
        (es : List Emission) (s2 : List Auction) (aid : Nat) (msg : String) (m : Int),
      placeBid store req socketId checkNow pushNow = (es, s2) →
      Emission.toSubmitter (Event.bidError aid msg (some m)) ∈ es →
        ∃ a, store.find? (fun item => item.id == req.auctionId) = some a ∧
          checkNow < a.endTime ∧ req.bidAmount < a.currentBid + a.minimumIncrement ∧
          m = a.currentBid + a.minimumIncrement ∧
          msg = "Bid must be at least $" ++ toString (a.currentBid + a.minimumIncrement) ∧
          aid = req.auctionId) := by
  refine ⟨?_, ?_, ?_⟩
  · intro store req socketId checkNow pushNow a hf hnow
    constructor
    · intro hlt
      exact placeBid_too_low store req socketId checkNow pushNow a hf hnow hlt
    · intro heq
      by_contra hge
      push_neg at hge
      rw [placeBid_accepted store req socketId checkNow pushNow a hf hnow hge] at heq
      simp at heq
  · intro store req socketId checkNow pushNow a hf hnow heq
    rw [placeBid_accepted store req socketId checkNow pushNow a hf hnow (le_of_eq heq.symm)]
  · intro store req socketId checkNow pushNow es s2 aid msg m h hs
    match hf : store.find? (fun item => item.id == req.auctionId) with
    | none =>
        rw [placeBid_not_found store req socketId checkNow pushNow hf] at h
        obtain ⟨he, -⟩ := Prod.mk.injEq .. ▸ h
        rw [← he] at hs
        simp at hs
    | some a =>
        by_cases hend : checkNow ≥ a.endTime
        · rw [placeBid_ended store req socketId checkNow pushNow a hf hend] at h
          obtain ⟨he, -⟩ := Prod.mk.injEq .. ▸ h
          rw [← he] at hs
          simp at hs
        · push_neg at hend
          by_cases hlt : req.bidAmount < a.currentBid + a.minimumIncrement
          · rw [placeBid_too_low store req socketId checkNow pushNow a hf hend hlt] at h
            obtain ⟨he, -⟩ := Prod.mk.injEq .. ▸ h
            rw [← he] at hs
            simp only [List.mem_singleton, Emission.toSubmitter.injEq,
              Event.bidError.injEq, Option.some.injEq] at hs
            exact ⟨a, hf, hend, hlt, hs.2.2, hs.2.1, hs.1⟩
          · push_neg at hlt
            rw [placeBid_accepted store req socketId checkNow pushNow a hf hend hlt] at h
            obtain ⟨he, -⟩ := Prod.mk.injEq .. ▸ h
            rw [← he] at hs
            simp at hs

/-- Witness for C3: a bid exactly at the minimum (demo auction, 160 = 150+10)
is accepted, via the exact-minimum clause. -/
theorem claim3_witness :
    (placeBid [demoAuction] ⟨1, 160, some ("A")⟩ ("sockA") 1000 1001).1
      = [Emission.toAll (Event.auctionUpdate 1 160
          (some (effectiveBidder (some ("A")) ("sockA")))
          (applyBid demoAuction ⟨1, 160, some ("A")⟩ ("sockA") 1001).bidHistory),
         Emission.toSubmitter (Event.bidSuccess 1 160)] :=
  claim3_price_check.2.1 [demoAuction] ⟨1, 160, some ("A")⟩ ("sockA") 1000 1001 demoAuction
    (by rfl) (by decide) (by decide)

/-- C4: an accepted bid appends exactly one history entry carrying its amount
and bidder, leaves the earlier entries unaltered, and sets `currentBid` and
`highestBidder` from that entry; in every reachable state `currentBid` and
`highestBidder` track the last history entry, or the seed values and `none`
when the history is empty. -/
theorem claim4_state_tracking :
    (∀ (a : Auction) (req : BidRequest) (socketId : String) (checkNow pushNow : Int),
      a.id = req.auctionId → checkNow < a.endTime →
      a.currentBid + a.minimumIncrement ≤ req.bidAmount →
        ∃ next, (placeBid [a] req socketId checkNow pushNow).2 = [next] ∧
          next.bidHistory = a.bidHistory ++
            [{ amount := req.bidAmount,
               bidder := effectiveBidder req.bidderName socketId,
               timestamp := pushNow }] ∧
          next.currentBid = req.bidAmount ∧
          next.bidHistory.getLast? = some
            { amount := req.bidAmount,
              bidder := effectiveBidder req.bidderName socketId,
              timestamp := pushNow } ∧
          next.highestBidder = some (effectiveBidder req.bidderName socketId)) ∧
    (∀ seed a : Auction, seed.bidHistory = [] → seed.highestBidder = none →
      Reachable seed a →
        (a.bidHistory = [] → a.currentBid = seed.currentBid ∧ a.highestBidder = none) ∧
        (∀ e, a.bidHistory.getLast? = some e →
          a.currentBid = e.amount ∧ a.highestBidder = some e.bidder)) := by
  constructor
  · intro a req socketId checkNow pushNow hid hnow hge
    have hf := find?_singleton_pos a req hid
    refine ⟨applyBid a req socketId pushNow, ?_, rfl, rfl, ?_, rfl⟩
    · rw [placeBid_accepted [a] req socketId checkNow pushNow a hf hnow hge]
      exact updateFirst_singleton (fun item => item.id == req.auctionId)
        (fun _ => applyBid a req socketId pushNow) a
        (by show (a.id == req.auctionId) = true; simp [hid])
    · show (a.bidHistory ++
          [({ amount := req.bidAmount,
              bidder := effectiveBidder req.bidderName socketId,
              timestamp := pushNow } : BidEntry)]).getLast? = _
      rw [List.getLast?_concat]
  · intro seed a h1 h2 h
    obtain ⟨-, -, -, -, -, -, hEmpty, hLast, -, -⟩ :=
      reachable_invariant seed a h1 h2 h
    exact ⟨hEmpty, hLast⟩

/-- Witness for C4 at the demo auction and A's 160 bid, with the push-time
reading one millisecond after the check-time reading. -/
theorem claim4_witness :
    ∃ next, (placeBid [demoAuction] ⟨1, 160, some ("A")⟩ ("sockA") 1000 1001).2 = [next] ∧
      next.bidHistory = demoAuction.bidHistory ++
        [{ amount := 160,
           bidder := effectiveBidder (some ("A")) ("sockA"),
           timestamp := 1001 }] ∧
      next.currentBid = 160 ∧
      next.bidHistory.getLast? = some
        { amount := 160, bidder := effectiveBidder (some ("A")) ("sockA"), timestamp := 1001 } ∧
      next.highestBidder = some (effectiveBidder (some ("A")) ("sockA")) :=
  claim4_state_tracking.1 demoAuction ⟨1, 160, some ("A")⟩ ("sockA") 1000 1001
    rfl (by decide) (by decide)

/-- C5: in every reachable state, each adjacent pair of history entries rises
by at least `minimumIncrement`; with a nonnegative increment `currentBid`
never drops below the seed, and no single handler call on the auction ever
decreases `currentBid`. -/
theorem claim5_monotonicity :
    (∀ seed a : Auction, seed.bidHistory = [] → seed.highestBidder = none →
      Reachable seed a →
        List.Chain' (fun x y => x.amount + a.minimumIncrement ≤ y.amount) a.bidHistory ∧
        (0 ≤ seed.minimumIncrement → seed.currentBid ≤ a.currentBid)) ∧
    (∀ (a : Auction) (req : BidRequest) (socketId : String) (checkNow pushNow : Int)
        (es : List Emission) (next : Auction), 0 ≤ a.minimumIncrement →
      placeBid [a] req socketId checkNow pushNow = (es, [next]) →
      a.currentBid ≤ next.currentBid) := by
  constructor
  · intro seed a h1 h2 h
    obtain ⟨-, -, -, -, hInc, -, -, -, hChain, hMono⟩ :=
      reachable_invariant seed a h1 h2 h
    rw [hInc]
    exact ⟨hChain, hMono⟩
  · intro a req socketId checkNow pushNow es next hpos h
    rcases placeBid_singleton_cases a next req socketId checkNow pushNow es h with
      rfl | ⟨-, -, hge, rfl⟩
    · exact le_refl _
    · show a.currentBid ≤ req.bidAmount
      omega

/-- Witness for C5: the state after A's accepted 160 bid on the demo auction
satisfies the chain property, and a bid never lowered `currentBid`. -/
theorem claim5_witness :
    (List.Chain' (fun x y => x.amount + demoAfterA.minimumIncrement ≤ y.amount)
        demoAfterA.bidHistory ∧
      (0 ≤ demoAuction.minimumIncrement → demoAuction.currentBid ≤ demoAfterA.currentBid)) :=
  claim5_monotonicity.1 demoAuction demoAfterA rfl rfl
    (Reachable.step demoAuction demoAfterA ⟨1, 160, some ("A")⟩ ("sockA") 1000 1000 _
      Reachable.init rfl (by decide))

/-- Counterexample to C6 as stated: from the seeded demo auction, one handler
call whose deadline check reads the clock at 899999 (accepted: one
millisecond before the 900000 deadline) but whose push-time reading is
900000 yields a reachable state whose history entry is stamped at `endTime`
itself — an entry at or after the deadline. -/
theorem claim6_counterexample :
    Reachable demoAuction demoLateStamp ∧
    ∃ e ∈ demoLateStamp.bidHistory, demoLateStamp.endTime ≤ e.timestamp :=
  ⟨Reachable.step demoAuction demoLateStamp ⟨1, 160, some ("A")⟩ ("sockA")
      899999 900000 _ Reachable.init rfl (by decide),
   ⟨{ amount := 160, bidder := "A", timestamp := 900000 }, by decide, by decide⟩⟩

/-- C6 (amended): the deadline check constrains only the first clock reading
of an accepted call, which is strictly below `endTime`; the appended entry is
stamped with the handler's second, later reading, which is never compared to
the deadline.  Consequently the original bound holds for the check-time
reading always, and for the stored timestamps exactly in those runs whose
accepted calls also stamp before the deadline. -/
theorem claim6_acceptance_clock :
    (∀ (a next : Auction) (req : BidRequest) (socketId : String)
        (checkNow pushNow : Int) (es : List Emission),
      placeBid [a] req socketId checkNow pushNow = (es, [next]) →
      Emission.toSubmitter (Event.bidSuccess req.auctionId req.bidAmount) ∈ es →
        checkNow < a.endTime ∧
        next.bidHistory = a.bidHistory ++
          [{ amount := req.bidAmount,
             bidder := effectiveBidder req.bidderName socketId,
             timestamp := pushNow }]) ∧
    (∀ seed a : Auction, seed.bidHistory = [] → ReachableWithin seed a →
      ∀ e ∈ a.bidHistory, e.timestamp < a.endTime) := by
  constructor
  · intro a next req socketId checkNow pushNow es hp hs
    obtain ⟨-, hend, -, rfl⟩ :=
      accepted_inversion a next req socketId checkNow pushNow es hp hs
    exact ⟨hend, rfl⟩
  · intro seed a h1 h
    exact (reachableWithin_timestamps seed a h1 h).2

/-- Witness for the amended C6: a concrete accepted call whose readings are
899999 (check) and 900000 (push) has its check reading below the deadline and
stores the push reading in the appended entry. -/
theorem claim6_witness :
    (899999 : Int) < demoAuction.endTime ∧
    (applyBid demoAuction ⟨1, 160, some ("A")⟩ ("sockA") 900000).bidHistory
      = demoAuction.bidHistory ++
        [{ amount := 160,
           bidder := effectiveBidder (some ("A")) ("sockA"),
           timestamp := 900000 }] :=
  claim6_acceptance_clock.1 demoAuction
    (applyBid demoAuction ⟨1, 160, some ("A")⟩ ("sockA") 900000)
    ⟨1, 160, some ("A")⟩ ("sockA") 899999 900000 _ rfl (by decide)

/-- C7: a request rejected with a `minimumBid` hint left the store unchanged,
and resubmitting the identical request against the same store (from any
connection, at any time still before the deadline) is rejected identically
with the same hint and again leaves the store unchanged. -/
theorem claim7_idempotent_rejection (store : List Auction) (req : BidRequest)
    (socketId socketId2 : String) (check1 push1 check2 push2 : Int) (a : Auction)
    (msg : String) (m : Int) (st1 : List Auction)
    (hf : store.find? (fun item => item.id == req.auctionId) = some a)
    (h1 : placeBid store req socketId check1 push1
      = ([Emission.toSubmitter (Event.bidError req.auctionId msg (some m))], st1))
    (hn : check2 < a.endTime) :
    st1 = store ∧
    placeBid store req socketId2 check2 push2
      = ([Emission.toSubmitter (Event.bidError req.auctionId msg (some m))], store) := by
  by_cases hend : check1 ≥ a.endTime
  · rw [placeBid_ended store req socketId check1 push1 a hf hend] at h1
    obtain ⟨he, -⟩ := Prod.mk.injEq .. ▸ h1
    simp at he
  · push_neg at hend
    by_cases hlt : req.bidAmount < a.currentBid + a.minimumIncrement
    · rw [placeBid_too_low store req socketId check1 push1 a hf hend hlt] at h1
      obtain ⟨he, hst⟩ := Prod.mk.injEq .. ▸ h1
      simp only [List.cons.injEq, Emission.toSubmitter.injEq, Event.bidError.injEq,
        Option.some.injEq, and_true] at he
      refine ⟨hst.symm, ?_⟩
      rw [placeBid_too_low store req socketId2 check2 push2 a hf hn hlt]
      rw [he.2.1, he.2.2]
    · push_neg at hlt
      rw [placeBid_accepted store req socketId check1 push1 a hf hend hlt] at h1
      obtain ⟨he, -⟩ := Prod.mk.injEq .. ▸ h1
      simp at he

/-- Witness for C7: B's 155 bid on the post-A state is rejected with hint 170
at time 2000, and resubmitting from another connection at time 2500 is
rejected identically with the store untouched. -/
theorem claim7_witness :
    ([demoAfterA] : List Auction) = [demoAfterA] ∧
    placeBid [demoAfterA] ⟨1, 155, some ("B")⟩ ("sockB2") 2500 2501
      = ([Emission.toSubmitter (Event.bidError 1 ("Bid must be at least $170") (some 170))],
         [demoAfterA]) :=
  claim7_idempotent_rejection [demoAfterA] ⟨1, 155, some ("B")⟩ ("sockB") "sockB2"
    2000 2001 2500 2501 demoAfterA ("Bid must be at least $170") 170 [demoAfterA]
    (by rfl) (by rfl) (by decide)

/-- C9: an accepted bid records `bidderName || socket.id` as both
`highestBidder` and the new history entry's bidder: the connection id when
the name is absent or the empty string, the exact name otherwise. -/
theorem claim9_bidder_fallback (a : Auction) (req : BidRequest) (socketId : String)
    (checkNow pushNow : Int) (hid : a.id = req.auctionId) (hnow : checkNow < a.endTime)
    (hge : a.currentBid + a.minimumIncrement ≤ req.bidAmount) :
    ∃ next, (placeBid [a] req socketId checkNow pushNow).2 = [next] ∧
      next.highestBidder = some (effectiveBidder req.bidderName socketId) ∧
      next.bidHistory.getLast? = some
        { amount := req.bidAmount,
          bidder := effectiveBidder req.bidderName socketId,
          timestamp := pushNow } ∧
      ((req.bidderName = none ∨ req.bidderName = some ("")) →
        effectiveBidder req.bidderName socketId = socketId) ∧
      (∀ s, req.bidderName = some s → s ≠ "" →
        effectiveBidder req.bidderName socketId = s) := by
  have hf := find?_singleton_pos a req hid
  refine ⟨applyBid a req socketId pushNow, ?_, rfl, ?_, ?_, ?_⟩
  · rw [placeBid_accepted [a] req socketId checkNow pushNow a hf hnow hge]
    exact updateFirst_singleton (fun item => item.id == req.auctionId)
      (fun _ => applyBid a req socketId pushNow) a
      (by show (a.id == req.auctionId) = true; simp [hid])
  · show (a.bidHistory ++
        [({ amount := req.bidAmount,
            bidder := effectiveBidder req.bidderName socketId,
            timestamp := pushNow } : BidEntry)]).getLast? = _
    rw [List.getLast?_concat]
  · rintro (hb | hb) <;> rw [hb] <;> simp [effectiveBidder]
  · intro s hb hs
    rw [hb]
    simp [effectiveBidder, hs]

/-- Witness for C9: a blank name falls back to the connection id. -/
theorem claim9_witness :
    ∃ next, (placeBid [demoAuction] ⟨1, 200, some ("")⟩ ("sock42") 1000 1000).2 = [next] ∧
      next.highestBidder = some (effectiveBidder (some ("")) ("sock42")) ∧
      next.bidHistory.getLast? = some
        { amount := 200, bidder := effectiveBidder (some ("")) ("sock42"),
          timestamp := 1000 } ∧
      ((some ("") = (none : Option String) ∨ some ("") = some ("")) →
        effectiveBidder (some ("")) ("sock42") = "sock42") ∧
      (∀ s, some ("") = some s → s ≠ "" →
        effectiveBidder (some ("")) ("sock42") = s) :=
  claim9_bidder_fallback demoAuction ⟨1, 200, some ("")⟩ ("sock42") 1000 1000
    rfl (by decide) (by decide)

/-- C10: any handler call keeps the store's length and order, leaves every
auction whose id differs from the request's completely unchanged, and
preserves `id`, `title`, `description`, `image`, `minimumIncrement` and
`endTime` on every auction — so an accepted bid can alter only `currentBid`,
`highestBidder` and `bidHistory` of the targeted auction. -/
theorem claim10_frame (store : List Auction) (req : BidRequest) (socketId : String)
    (checkNow pushNow : Int) :
    List.Forall₂ (fun b b' =>
        (b.id ≠ req.auctionId → b' = b) ∧
        b'.id = b.id ∧ b'.title = b.title ∧ b'.description = b.description ∧
        b'.image = b.image ∧ b'.minimumIncrement = b.minimumIncrement ∧
        b'.endTime = b.endTime)
      store (placeBid store req socketId checkNow pushNow).2 := by
  have hrefl : ∀ b : Auction,
      (b.id ≠ req.auctionId → b = b) ∧
      b.id = b.id ∧ b.title = b.title ∧ b.description = b.description ∧
      b.image = b.image ∧ b.minimumIncrement = b.minimumIncrement ∧
      b.endTime = b.endTime :=
    fun b => ⟨fun _ => rfl, rfl, rfl, rfl, rfl, rfl, rfl⟩
  have hsame : List.Forall₂ (fun b b' =>
      (b.id ≠ req.auctionId → b' = b) ∧
      b'.id = b.id ∧ b'.title = b.title ∧ b'.description = b.description ∧
      b'.image = b.image ∧ b'.minimumIncrement = b.minimumIncrement ∧
      b'.endTime = b.endTime) store store :=
    List.forall₂_same.mpr fun b _ => hrefl b
  match hf : store.find? (fun item => item.id == req.auctionId) with
  | none =>
      rw [placeBid_not_found store req socketId checkNow pushNow hf]
      exact hsame
  | some a =>
      have hida : a.id = req.auctionId := by
        have := List.find?_some hf
        simpa using this
      by_cases hend : checkNow ≥ a.endTime
      · rw [placeBid_ended store req socketId checkNow pushNow a hf hend]
        exact hsame
      · push_neg at hend
        by_cases hlt : req.bidAmount < a.currentBid + a.minimumIncrement
        · rw [placeBid_too_low store req socketId checkNow pushNow a hf hend hlt]
          exact hsame
        · push_neg at hlt
          rw [placeBid_accepted store req socketId checkNow pushNow a hf hend hlt]
          refine updateFirst_forall₂ _ _ _ hrefl store a hf ?_
          exact ⟨fun hne => absurd hida hne, rfl, rfl, rfl, rfl, rfl, rfl⟩

/-- Witness for C10: a concrete accepted bid on a two-auction store leaves
the other auction untouched and preserves the targeted auction's immutable
fields. -/
theorem claim10_witness :
    List.Forall₂ (fun b b' =>
        (b.id ≠ 1 → b' = b) ∧
        b'.id = b.id ∧ b'.title = b.title ∧ b'.description = b.description ∧
        b'.image = b.image ∧ b'.minimumIncrement = b.minimumIncrement ∧
        b'.endTime = b.endTime)
      [demoAuction, otherAuction]
      (placeBid [demoAuction, otherAuction] ⟨1, 160, some ("A")⟩ ("sockA") 1000 1001).2 :=
  claim10_frame [demoAuction, otherAuction] ⟨1, 160, some ("A")⟩ ("sockA") 1000 1001

end LiveBid
